import Mathlib

/-!
Verification of the gorocks write-batch codec (builder + reader).

Bytes are modelled as `Nat` (with explicit `< 256` hypotheses where the
value of the continuation bit matters), byte buffers as `List Nat`.
Go's `uint64` arithmetic is modelled with explicit `% 2 ^ 64`, and Go's
`int(x)` conversion of a `uint64` with an explicit signed reinterpretation.
A Go slice-expression fault (index out of range) is modelled by `Option`:
`none` is an unrecovered fault.
-/

namespace GoRocks

/-- Embeds the loop body of `decodeVarint` (src/unnamed/part_000, lines
167-182).  The Go loop `for shift := uint(0); shift < 64; shift += 7` runs
its body for `shift = 0, 7, ..., 63`, i.e. exactly 10 times; `iters` counts
the iterations that remain, so the entry point calls with `iters = 10`,
and `shift = 7 * (10 - iters)` throughout.  `x |= (b & 0x7F) << shift` on
`uint64` is the accumulation below, truncated at 64 bits. -/
def decodeVarintAux (buf : List Nat) : Nat → Nat → Nat → Nat → Nat × Nat
  | 0, _, _, _ => (0, 0)
  | iters + 1, shift, x, n =>
    if buf.length ≤ n then (0, 0)
    else
      let b := buf.getD n 0
      let x2 := (x ||| ((b &&& 0x7F) <<< shift)) % 2 ^ 64
      if b &&& 0x80 = 0 then (x2, n + 1)
      else decodeVarintAux buf iters (shift + 7) x2 (n + 1)

/-- `decodeVarint` (src/unnamed/part_000, lines 167-182): returns the
decoded value and the number of bytes consumed, `(0, 0)` on failure. -/
def decodeVarint (buf : List Nat) : Nat × Nat :=
  decodeVarintAux buf 10 0 0 0

/-- The record type tags (src/unnamed/part_000, lines 91-96). -/
def RecordTypeDeletion : Nat := 0x0

def RecordTypeValue : Nat := 0x1

def RecordTypeMerge : Nat := 0x2

def RecordTypeLogData : Nat := 0x3

/-- `Record` (src/unnamed/part_000, lines 98-102).  A Go `nil` slice is
`none`; a present (possibly empty) slice is `some`.  The Go field `Type`
is called `Typ` here because `Type` is reserved in Lean. -/
structure Record where
  Key : Option (List Nat)
  Value : Option (List Nat)
  Typ : Nat
deriving DecidableEq, Repr

/-- `WriteBatchIterator` (src/unnamed/part_000, lines 83-87).  The only
error ever stored is `io.ErrShortBuffer`, so `err` is an `Option Unit`. -/
structure WriteBatchIterator where
  data : List Nat
  record : Record
  err : Option Unit
deriving DecidableEq, Repr

/-- Go's `int(x)` reinterpretation of a `uint64` value `x` as a signed
64-bit integer. -/
def goInt64 (x : Nat) : Int :=
  if x < 2 ^ 63 then (x : Int) else (x : Int) - 2 ^ 64

/-- Go slice expression `l[lo:hi]`: defined when `0 ≤ lo ≤ hi ≤ len(l)`
(the reader's buffers have capacity equal to their length), a fault
(`none`) otherwise. -/
def goSlice (l : List Nat) (lo : Nat) (hi : Int) : Option (List Nat) :=
  if (lo : Int) ≤ hi ∧ hi ≤ (l.length : Int) then some ((l.take hi.toNat).drop lo)
  else none

/-- Go slice expression `l[lo:]`: defined when `0 ≤ lo ≤ len(l)`. -/
def goSliceFrom (l : List Nat) (lo : Int) : Option (List Nat) :=
  if 0 ≤ lo ∧ lo ≤ (l.length : Int) then some (l.drop lo.toNat) else none

/-- `WriteBatchIterator.Next` (src/unnamed/part_000, lines 124-157).
Returns `none` on an unrecovered Go fault (slice index out of range),
otherwise `some (returnValue, newState)`. -/
def WriteBatchIterator.Next (it : WriteBatchIterator) :
    Option (Bool × WriteBatchIterator) :=
  if it.err.isSome then some (false, it)
  else
    match it.data with
    | [] => some (false, it)
    | t :: body =>
      let p := decodeVarint body
      if p.2 = 0 then
        some (false, { data := body, record := ⟨none, none, t⟩, err := some () })
      else
        let k : Int := (p.2 : Int) + goInt64 p.1
        match goSlice body p.2 k, goSliceFrom body k with
        | some key, some rest2 =>
          if t = RecordTypeValue ∨ t = RecordTypeMerge then
            let q := decodeVarint rest2
            if q.2 = 0 then
              some (false,
                { data := rest2, record := ⟨some key, none, t⟩, err := some () })
            else
              let k2 : Int := (q.2 : Int) + goInt64 q.1
              match goSlice rest2 q.2 k2, goSliceFrom rest2 k2 with
              | some v, some rest3 =>
                some (true,
                  { data := rest3, record := ⟨some key, some v, t⟩, err := none })
              | _, _ => none
          else some (true, { data := rest2, record := ⟨some key, none, t⟩, err := none })
        | _, _ => none

/-- `WriteBatch.NewIterator` (src/unnamed/part_000, lines 116-122), applied
to the batch's serialized bytes: shorter than the 12-byte header gives the
zero-valued iterator, otherwise the header is stripped. -/
def newIterator (data : List Nat) : WriteBatchIterator :=
  if data.length < 8 + 4 then { data := [], record := ⟨none, none, 0⟩, err := none }
  else { data := data.drop 12, record := ⟨none, none, 0⟩, err := none }

/-- Drives the iterator: collects the records of the successful `Next`
calls, stopping at the first `Next` that returns `false` (and also
returning the final iterator state); `none` on a Go fault or fuel
exhaustion. -/
def readAll : WriteBatchIterator → Nat → Option (List Record × WriteBatchIterator)
  | _, 0 => none
  | it, fuel + 1 =>
    match it.Next with
    | none => none
    | some (false, it2) => some ([], it2)
    | some (true, it2) =>
      match readAll it2 fuel with
      | none => none
      | some (rs, itf) => some (it2.record :: rs, itf)

/-- One queued builder operation. -/
inductive BatchOp where
  | put (key value : List Nat)
  | del (key : List Nat)
deriving DecidableEq, Repr

/-- Fuel-driven worker for `encodeVarint`; the fuel is an upper bound on
the number of base-128 digits, never reached since it starts at the value
itself. -/
def encodeVarintAux : Nat → Nat → List Nat
  | 0, x => [x % 128]
  | f + 1, x => if x < 128 then [x] else (x % 128 + 128) :: encodeVarintAux f (x / 128)

/-- Modelled from the spec: the base-128 varint encoding of §6
("varint := base-128 groups, LSB-first 7 bits per byte, MSB of each byte =
continuation flag"), the encoder counterpart of `decodeVarint`; the
builder's encoder lives in the storage-engine library, not in src/. -/
def encodeVarint (x : Nat) : List Nat :=
  encodeVarintAux x x

/-- Modelled from the spec: the serialized form of one record (§6
`record := type:uint8 ...`, and the format comment at src/unnamed/part_000
lines 104-114); the builder's encoder lives in the storage-engine library,
not in src/. -/
def encodeRecord : BatchOp → List Nat
  | .put k v =>
    RecordTypeValue :: (encodeVarint k.length ++ k ++ encodeVarint v.length ++ v)
  | .del k => RecordTypeDeletion :: (encodeVarint k.length ++ k)

/-- Little-endian fixed32. -/
def fixed32LE (c : Nat) : List Nat :=
  [c % 256, c / 256 % 256, c / 256 ^ 2 % 256, c / 256 ^ 3 % 256]

/-- Modelled from the spec: the full batch serialization (§6
`batch := header body`, `header := sequence:fixed64(LE) count:fixed32(LE)`;
the sequence number of an uncommitted batch is 0); the builder lives in
the storage-engine library, not in src/. -/
def serialize (ops : List BatchOp) : List Nat :=
  List.replicate 8 0 ++ fixed32LE ops.length ++ (ops.map encodeRecord).flatten

/-- The record the reader is expected to produce for one builder op. -/
def toRecord : BatchOp → Record
  | .put k v => ⟨some k, some v, RecordTypeValue⟩
  | .del k => ⟨some k, none, RecordTypeDeletion⟩

/-- Models Go's `&l[0]`: taking the address of the first element faults on
an empty slice. -/
def addrOfFirst (l : List Nat) : Option Unit :=
  match l with
  | [] => none
  | _ :: _ => some ()

/-- `WriteBatch.Put` (src/unnamed/part_000, lines 37-53): the first-byte
addresses are taken only under the explicit `len != 0` guards; the
append itself is modelled from the spec (§4.2: the record is queued, both
byte strings copied), the C call being outside src/. -/
def WriteBatch.Put (w : List BatchOp) (key value : List Nat) :
    Option (List BatchOp) :=
  match (if key.length ≠ 0 then addrOfFirst key else some ()),
        (if value.length ≠ 0 then addrOfFirst value else some ()) with
  | some _, some _ => some (w ++ [BatchOp.put key value])
  | _, _ => none

/-- `WriteBatch.Delete` (src/unnamed/part_000, lines 59-62): the address
`&key[0]` is taken unconditionally; the append itself is modelled from the
spec (§4.2), the C call being outside src/. -/
def WriteBatch.Delete (w : List BatchOp) (key : List Nat) : Option (List BatchOp) :=
  match addrOfFirst key with
  | some _ => some (w ++ [BatchOp.del key])
  | none => none

/-- Applies a sequence of builder operations to a batch, faulting if any
single operation faults. -/
def applyOps (w : List BatchOp) : List BatchOp → Option (List BatchOp)
  | [] => some w
  | BatchOp.put k v :: rest =>
    match WriteBatch.Put w k v with
    | some w2 => applyOps w2 rest
    | none => none
  | BatchOp.del k :: rest =>
    match WriteBatch.Delete w k with
    | some w2 => applyOps w2 rest
    | none => none

/-- The unsigned integer denoted by a byte sequence read as base-128
groups, least-significant group first, 7 bits per byte (the mathematical
value of a varint byte run, before any 64-bit truncation). -/
def combineLow7 : List Nat → Nat
  | [] => 0
  | b :: bs => b % 128 + 128 * combineLow7 bs

/-- Whether parsing one record at the front of `data` hits a failing
varint decode (the only condition under which `Next` latches its error):
the key-length decode fails, or the type has a value field and the
value-length decode fails. -/
def varintFailsInRecord : List Nat → Bool
  | [] => false
  | t :: body =>
    let p := decodeVarint body
    (p.2 == 0) ||
      ((t == RecordTypeValue || t == RecordTypeMerge) &&
        (decodeVarint (body.drop (p.2 + p.1))).2 == 0)

/-- Key and value lengths representable in the wire format (`len:
varint32` per the format comment at src/unnamed/part_000 line 113). -/
def lengthsOK : BatchOp → Prop
  | .put k v => k.length < 2 ^ 32 ∧ v.length < 2 ^ 32
  | .del k => k.length < 2 ^ 32

/-- Cut points (number of leading bytes kept of `encodeRecord op`) that
are strictly inside the record and inside a length varint or at a field
boundary — i.e. those where the cut does not land strictly inside key or
value data bytes that follow a completely present length varint. -/
def errorCut : BatchOp → Nat → Prop
  | .del k, m => 1 ≤ m ∧ m ≤ (encodeVarint k.length).length
  | .put k v, m =>
    (1 ≤ m ∧ m ≤ (encodeVarint k.length).length) ∨
      (1 + (encodeVarint k.length).length + k.length ≤ m ∧
        m ≤ (encodeVarint k.length).length + k.length + (encodeVarint v.length).length)

/-- The delete keys of a batch-op sequence are non-empty. -/
def delOK : BatchOp → Prop
  | .put _ _ => True
  | .del k => k ≠ []

instance (op : BatchOp) : Decidable (delOK op) := by
  cases op with
  | put k v => exact isTrue trivial
  | del k => exact inferInstanceAs (Decidable (k ≠ []))

instance (op : BatchOp) : Decidable (lengthsOK op) := by
  cases op with
  | put k v => exact inferInstanceAs (Decidable (k.length < 2 ^ 32 ∧ v.length < 2 ^ 32))
  | del k => exact inferInstanceAs (Decidable (k.length < 2 ^ 32))

instance (op : BatchOp) (m : Nat) : Decidable (errorCut op m) := by
  cases op with
  | put k v =>
    exact inferInstanceAs (Decidable
      ((1 ≤ m ∧ m ≤ (encodeVarint k.length).length) ∨
        (1 + (encodeVarint k.length).length + k.length ≤ m ∧
          m ≤ (encodeVarint k.length).length + k.length +
            (encodeVarint v.length).length)))
  | del k =>
    exact inferInstanceAs (Decidable (1 ≤ m ∧ m ≤ (encodeVarint k.length).length))

lemma and_127_eq (b : Nat) : b &&& 127 = b % 128 := by
  have h : (127 : Nat) = 2 ^ 7 - 1 := by norm_num
  rw [h, Nat.and_pow_two_sub_one_eq_mod]

lemma and_128_of_lt {b : Nat} (h : b < 128) : b &&& 128 = 0 := by
  have h7 : (128 : Nat) = 2 ^ 7 := by norm_num
  rw [h7, Nat.and_two_pow, Nat.testBit_to_div_mod, ← h7]
  have hd : b / 128 = 0 := Nat.div_eq_of_lt h
  simp [hd]

lemma and_128_of_ge {b : Nat} (h1 : 128 ≤ b) (h2 : b < 256) : b &&& 128 = 128 := by
  have h7 : (128 : Nat) = 2 ^ 7 := by norm_num
  rw [h7, Nat.and_two_pow, Nat.testBit_to_div_mod, ← h7]
  have hd : b / 128 = 1 := by omega
  simp [hd]

lemma or_shift {x m s : Nat} (hx : x < 2 ^ s) :
    x ||| (m <<< s) = 2 ^ s * m + x := by
  rw [Nat.shiftLeft_eq, Nat.or_comm, mul_comm m (2 ^ s)]
  exact (Nat.mul_add_lt_is_or hx m).symm

lemma drop_head {buf : List Nat} {n b : Nat} {rest : List Nat}
    (h : buf.drop n = b :: rest) : buf.getD n 0 = b ∧ buf.drop (n + 1) = rest := by
  have hn : n < buf.length := by
    have hl := congrArg List.length h
    simp [List.length_drop] at hl
    omega
  have h2 := List.drop_eq_getElem_cons (l := buf) (n := n) hn
  rw [h] at h2
  injection h2 with hb hr
  refine ⟨?_, hr.symm⟩
  simp [List.getD_eq_getElem?_getD, List.getElem?_eq_getElem hn, hb]

lemma getD_mem {l : List Nat} {j : Nat} (h : j < l.length) : l.getD j 0 ∈ l := by
  rw [List.getD_eq_getElem?_getD, List.getElem?_eq_getElem h]
  exact List.getElem_mem h

/-- If every byte the loop can reach from position `n` carries the
continuation bit, the decode fails with `(0, 0)`. -/
lemma decodeVarintAux_all_cont (buf : List Nat) (hb : ∀ b ∈ buf, b < 256) :
    ∀ (iters shift x n : Nat),
      (∀ j, j < iters → n + j < buf.length → 128 ≤ buf.getD (n + j) 0) →
      decodeVarintAux buf iters shift x n = (0, 0) := by
  intro iters
  induction iters with
  | zero => intro shift x n _; rfl
  | succ it ih =>
    intro shift x n hcont
    by_cases hn : buf.length ≤ n
    · simp [decodeVarintAux, hn]
    · push_neg at hn
      have h128 : 128 ≤ buf.getD n 0 := by
        have := hcont 0 (by omega) (by omega)
        simpa using this
      have hlt : buf.getD n 0 < 256 := hb _ (getD_mem hn)
      have hand : buf.getD n 0 &&& 128 = 128 := and_128_of_ge h128 hlt
      simp only [decodeVarintAux, hand]
      rw [if_neg (by omega), if_neg (by norm_num)]
      refine ih _ _ _ ?_
      intro j hj hlen
      have e : n + 1 + j = n + (j + 1) := by omega
      rw [e]
      exact hcont (j + 1) (by omega) (by omega)

/-- Full characterization of a successful decode: if the first byte with a
clear continuation bit among the bytes from position `n` is at offset `i`,
and enough loop iterations remain, the decode returns the base-128
combination of the consumed low-7-bit groups (truncated to 64 bits) and
consumes `i + 1` bytes. -/
lemma decodeVarintAux_clear :
    ∀ (i : Nat) (l buf : List Nat) (x n iters shift : Nat),
      buf.drop n = l →
      (∀ j, j ≤ i → l.getD j 0 < 256) →
      (∀ j, j < i → 128 ≤ l.getD j 0) →
      i < l.length → l.getD i 0 < 128 →
      i < iters → shift + 7 * iters ≤ 70 → x < 2 ^ shift →
      decodeVarintAux buf iters shift x n =
        ((x + combineLow7 (l.take (i + 1)) * 2 ^ shift) % 2 ^ 64, n + i + 1) := by
  intro i
  induction i with
  | zero =>
    intro l buf x n iters shift hdrop hle _hlt hlen hclear hiters hbound hx
    cases l with
    | nil => simp at hlen
    | cons b rest =>
      obtain ⟨hgd, _⟩ := drop_head hdrop
      cases iters with
      | zero => omega
      | succ it =>
        have hn : n < buf.length := by
          have hl := congrArg List.length hdrop
          simp [List.length_drop] at hl
          omega
        have hb128 : b < 128 := by simpa using hclear
        simp only [decodeVarintAux, hgd]
        rw [if_neg (by omega)]
        rw [and_128_of_lt hb128]
        rw [if_pos rfl]
        rw [and_127_eq, or_shift hx]
        simp only [List.take_succ_cons, List.take_zero, combineLow7, Prod.mk.injEq]
        constructor
        · congr 1
          ring
        · trivial
  | succ i ih =>
    intro l buf x n iters shift hdrop hle hlt hlen hclear hiters hbound hx
    cases l with
    | nil => simp at hlen
    | cons b rest =>
      obtain ⟨hgd, hdrop1⟩ := drop_head hdrop
      cases iters with
      | zero => omega
      | succ it =>
        have hn : n < buf.length := by
          have hl := congrArg List.length hdrop
          simp [List.length_drop] at hl
          omega
        have hb256 : b < 256 := by simpa using hle 0 (by omega)
        have hb128 : 128 ≤ b := by simpa using hlt 0 (by omega)
        have hshift7 : shift + 7 ≤ 63 := by omega
        have hmod : b % 128 ≤ 127 := by omega
        have hx2 : 2 ^ shift * (b % 128) + x < 2 ^ (shift + 7) := by
          have h1 : 2 ^ shift * (b % 128) ≤ 2 ^ shift * 127 :=
            Nat.mul_le_mul_left _ hmod
          have h2 : (2 : Nat) ^ (shift + 7) = 2 ^ shift * 128 := by
            rw [pow_add]; norm_num
          omega
        have hlt64 : 2 ^ shift * (b % 128) + x < 2 ^ 64 :=
          lt_of_lt_of_le hx2 (Nat.pow_le_pow_right (by norm_num) (by omega))
        simp only [decodeVarintAux, hgd]
        rw [if_neg (by omega)]
        rw [and_128_of_ge hb128 hb256]
        rw [if_neg (by norm_num)]
        rw [and_127_eq, or_shift hx, Nat.mod_eq_of_lt hlt64]
        rw [ih rest buf (2 ^ shift * (b % 128) + x) (n + 1) it (shift + 7) hdrop1
          (fun j hj => by simpa using hle (j + 1) (by omega))
          (fun j hj => by simpa using hlt (j + 1) (by omega))
          (by simpa using Nat.lt_of_succ_lt_succ (by simpa using hlen))
          (by simpa using hclear)
          (by omega) (by omega) hx2]
        simp only [List.take_succ_cons, combineLow7, Prod.mk.injEq]
        constructor
        · congr 1
          rw [pow_add]
          ring
        · omega

lemma getD_append_left {l l' : List Nat} {j : Nat} (h : j < l.length) :
    (l ++ l').getD j 0 = l.getD j 0 := by
  simp [List.getD_eq_getElem?_getD, List.getElem?_append_left h]

lemma encodeVarintAux_congr : ∀ (f g x : Nat), x ≤ f → x ≤ g →
    encodeVarintAux f x = encodeVarintAux g x := by
  intro f
  induction f with
  | zero =>
    intro g x hf _
    interval_cases x
    cases g with
    | zero => rfl
    | succ g => simp [encodeVarintAux]
  | succ f ih =>
    intro g x hf hg
    cases g with
    | zero =>
      interval_cases x
      simp [encodeVarintAux]
    | succ g =>
      by_cases hx : x < 128
      · simp [encodeVarintAux, hx]
      · have hpos : 0 < x := by omega
        have hdiv : x / 128 < x := Nat.div_lt_self hpos (by norm_num)
        simp only [encodeVarintAux, if_neg hx]
        rw [ih g (x / 128) (by omega) (by omega)]

/-- The recursive unfolding of `encodeVarint`, independent of the fuel. -/
lemma encodeVarint_eq (x : Nat) :
    encodeVarint x =
      if x < 128 then [x] else (x % 128 + 128) :: encodeVarint (x / 128) := by
  by_cases hx : x < 128
  · rw [if_pos hx]
    cases x with
    | zero => rfl
    | succ y => simp [encodeVarint, encodeVarintAux, hx]
  · rw [if_neg hx]
    have hpos : 0 < x := by omega
    obtain ⟨y, rfl⟩ : ∃ y, x = y + 1 := ⟨x - 1, by omega⟩
    show encodeVarintAux (y + 1) (y + 1) = _
    simp only [encodeVarintAux, if_neg hx]
    congr 1
    exact encodeVarintAux_congr y ((y + 1) / 128) ((y + 1) / 128)
      (by have := Nat.div_lt_self (by omega : 0 < y + 1) (by norm_num : 1 < 128); omega)
      (le_refl _)

lemma encodeVarint_ne_nil (x : Nat) : encodeVarint x ≠ [] := by
  rw [encodeVarint_eq]
  split <;> simp

lemma encodeVarint_length_pos (x : Nat) : 0 < (encodeVarint x).length :=
  List.length_pos.mpr (encodeVarint_ne_nil x)

lemma encodeVarint_bytes (x : Nat) : ∀ b ∈ encodeVarint x, b < 256 := by
  induction x using Nat.strong_induction_on with
  | _ x ih =>
    rw [encodeVarint_eq]
    split
    · intro b hb
      simp at hb
      omega
    · intro b hb
      rcases List.mem_cons.mp hb with h | h
      · have : x % 128 < 128 := Nat.mod_lt _ (by norm_num)
        omega
      · exact ih (x / 128) (Nat.div_lt_self (by omega) (by norm_num)) b h

lemma encodeVarint_cont (x : Nat) :
    ∀ j, j + 1 < (encodeVarint x).length → 128 ≤ (encodeVarint x).getD j 0 := by
  induction x using Nat.strong_induction_on with
  | _ x ih =>
    rw [encodeVarint_eq]
    split
    · intro j hj
      simp at hj
    · intro j hj
      cases j with
      | zero => simp
      | succ j =>
        rw [List.getD_cons_succ]
        refine ih (x / 128) (Nat.div_lt_self (by omega) (by norm_num)) j ?_
        simp at hj
        omega

lemma encodeVarint_last (x : Nat) :
    (encodeVarint x).getD ((encodeVarint x).length - 1) 0 < 128 := by
  induction x using Nat.strong_induction_on with
  | _ x ih =>
    rw [encodeVarint_eq]
    split
    · simpa using ‹x < 128›
    · have hne := encodeVarint_ne_nil (x / 128)
      have hpos : 0 < (encodeVarint (x / 128)).length := List.length_pos.mpr hne
      have e : (encodeVarint (x / 128)).length - 1 + 1 = (encodeVarint (x / 128)).length := by
        omega
      simp only [List.length_cons]
      rw [Nat.add_sub_cancel, ← e, List.getD_cons_succ]
      exact ih (x / 128) (Nat.div_lt_self (by omega) (by norm_num))

lemma combineLow7_encodeVarint (x : Nat) : combineLow7 (encodeVarint x) = x := by
  induction x using Nat.strong_induction_on with
  | _ x ih =>
    rw [encodeVarint_eq]
    split
    · simp [combineLow7]
      omega
    · rw [combineLow7, ih (x / 128) (Nat.div_lt_self (by omega) (by norm_num)),
        Nat.add_mod_right]
      omega

lemma encodeVarint_length_le :
    ∀ (x k : Nat), 1 ≤ k → x < 2 ^ (7 * k) → (encodeVarint x).length ≤ k := by
  intro x
  induction x using Nat.strong_induction_on with
  | _ x ih =>
    intro k hk hx
    rw [encodeVarint_eq]
    split
    · simpa using hk
    · have hge : 128 ≤ x := by omega
      have hk2 : 2 ≤ k := by
        by_contra hcon
        have : k = 1 := by omega
        subst this
        norm_num at hx
        omega
      have hsplit : (2 : Nat) ^ (7 * k) = 2 ^ (7 * (k - 1)) * 128 := by
        have e : 7 * k = 7 * (k - 1) + 7 := by omega
        rw [e, pow_add]
        norm_num
      have hdivlt : x / 128 < 2 ^ (7 * (k - 1)) := by
        rw [Nat.div_lt_iff_lt_mul (by norm_num)]
        omega
      have := ih (x / 128) (Nat.div_lt_self (by omega) (by norm_num)) (k - 1)
        (by omega) hdivlt
      simp only [List.length_cons]
      omega

/-- Decoding an encoded varint at the front of a buffer recovers the value
and consumes exactly the encoding. -/
lemma decodeVarint_encodeVarint (L : Nat) (hL : L < 2 ^ 64) (rest : List Nat) :
    decodeVarint (encodeVarint L ++ rest) = (L, (encodeVarint L).length) := by
  have hne := encodeVarint_ne_nil L
  have hpos := encodeVarint_length_pos L
  have hlen10 : (encodeVarint L).length ≤ 10 :=
    encodeVarint_length_le L 10 (by norm_num)
      (lt_of_lt_of_le hL (by norm_num))
  have h := decodeVarintAux_clear ((encodeVarint L).length - 1)
    (encodeVarint L ++ rest) (encodeVarint L ++ rest) 0 0 10 0
    (List.drop_zero _)
    (fun j hj => by
      rw [getD_append_left (by omega)]
      exact encodeVarint_bytes L _ (getD_mem (by omega)))
    (fun j hj => by
      rw [getD_append_left (by omega)]
      exact encodeVarint_cont L j (by omega))
    (by simp [List.length_append]; omega)
    (by rw [getD_append_left (by omega)]; exact encodeVarint_last L)
    (by omega) (by omega) (by norm_num)
  rw [decodeVarint, h]
  have e1 : (encodeVarint L).length - 1 + 1 = (encodeVarint L).length := by omega
  rw [e1, List.take_left, combineLow7_encodeVarint]
  simp [Nat.mod_eq_of_lt hL]
  omega

lemma goInt64_small {x : Nat} (h : x < 2 ^ 63) : goInt64 x = (x : Int) := by
  simp only [goInt64]
  rw [if_pos h]

lemma goSlice_encoded (L rest : List Nat) (hL : L.length < 2 ^ 63) :
    goSlice (encodeVarint L.length ++ (L ++ rest)) (encodeVarint L.length).length
      (((encodeVarint L.length).length : Int) + goInt64 L.length) = some L := by
  rw [goInt64_small hL]
  rw [goSlice]
  rw [if_pos]
  · congr 1
    have e : (((encodeVarint L.length).length : Int) + (L.length : Int)).toNat =
        (encodeVarint L.length).length + L.length := rfl
    rw [e, List.take_append, List.take_left, List.drop_left]
  · refine ⟨by omega, ?_⟩
    simp only [List.length_append]
    push_cast
    omega

lemma goSliceFrom_encoded (L rest : List Nat) (hL : L.length < 2 ^ 63) :
    goSliceFrom (encodeVarint L.length ++ (L ++ rest))
      (((encodeVarint L.length).length : Int) + goInt64 L.length) = some rest := by
  rw [goInt64_small hL]
  rw [goSliceFrom]
  rw [if_pos]
  · congr 1
    have e : (((encodeVarint L.length).length : Int) + (L.length : Int)).toNat =
        (encodeVarint L.length).length + L.length := rfl
    rw [e, List.drop_append, List.drop_left]
  · refine ⟨by positivity, ?_⟩
    simp only [List.length_append]
    push_cast
    omega

lemma next_encodeRecord (op : BatchOp) (rest : List Nat) (r : Record)
    (hop : lengthsOK op) :
    WriteBatchIterator.Next ⟨encodeRecord op ++ rest, r, none⟩ =
      some (true, ⟨rest, toRecord op, none⟩) := by
  cases op with
  | del k =>
    obtain hk : k.length < 2 ^ 32 := hop
    have hk63 : k.length < 2 ^ 63 := by omega
    have hpos := encodeVarint_length_pos k.length
    have hdata : encodeRecord (BatchOp.del k) ++ rest =
        RecordTypeDeletion :: (encodeVarint k.length ++ (k ++ rest)) := by
      simp [encodeRecord, List.append_assoc]
    rw [hdata]
    simp only [WriteBatchIterator.Next, Option.isSome_none, Bool.false_eq_true, if_false,
      decodeVarint_encodeVarint k.length (by omega : k.length < 2 ^ 64) (k ++ rest)]
    rw [if_neg (by omega)]
    rw [goSlice_encoded k rest hk63, goSliceFrom_encoded k rest hk63]
    dsimp only
    rw [if_neg (by simp [RecordTypeDeletion, RecordTypeValue, RecordTypeMerge])]
    simp [toRecord]
  | put k v =>
    obtain ⟨hk, hv⟩ : k.length < 2 ^ 32 ∧ v.length < 2 ^ 32 := hop
    have hk63 : k.length < 2 ^ 63 := by omega
    have hv63 : v.length < 2 ^ 63 := by omega
    have hposk := encodeVarint_length_pos k.length
    have hposv := encodeVarint_length_pos v.length
    have hdata : encodeRecord (BatchOp.put k v) ++ rest =
        RecordTypeValue ::
          (encodeVarint k.length ++ (k ++ (encodeVarint v.length ++ (v ++ rest)))) := by
      simp [encodeRecord, List.append_assoc]
    rw [hdata]
    simp only [WriteBatchIterator.Next, Option.isSome_none, Bool.false_eq_true, if_false,
      decodeVarint_encodeVarint k.length (by omega : k.length < 2 ^ 64)
        (k ++ (encodeVarint v.length ++ (v ++ rest)))]
    rw [if_neg (by omega)]
    rw [goSlice_encoded k (encodeVarint v.length ++ (v ++ rest)) hk63,
      goSliceFrom_encoded k (encodeVarint v.length ++ (v ++ rest)) hk63]
    dsimp only
    rw [if_pos (by simp [RecordTypeValue, RecordTypeMerge])]
    simp only [decodeVarint_encodeVarint v.length (by omega : v.length < 2 ^ 64) (v ++ rest)]
    rw [if_neg (by omega)]
    rw [goSlice_encoded v rest hv63, goSliceFrom_encoded v rest hv63]
    dsimp only
    simp [toRecord]


lemma readAll_cons (op : BatchOp) (rest : List Nat) (r : Record) (f : Nat)
    (hop : lengthsOK op) :
    readAll ⟨encodeRecord op ++ rest, r, none⟩ (f + 1) =
      (readAll ⟨rest, toRecord op, none⟩ f).map
        (fun p => (toRecord op :: p.1, p.2)) := by
  simp only [readAll, next_encodeRecord op rest r hop]
  cases h : readAll ⟨rest, toRecord op, none⟩ f <;> simp [h]

/-- Reading a buffer that starts with a run of whole encoded records
produces exactly those records and continues on the leftover bytes. -/
lemma readAll_flatten (done : List BatchOp) :
    ∀ (rest : List Nat) (r : Record) (f : Nat),
      (∀ op ∈ done, lengthsOK op) →
      readAll ⟨(done.map encodeRecord).flatten ++ rest, r, none⟩ (done.length + f) =
        (readAll ⟨rest, (done.map toRecord).getLastD r, none⟩ f).map
          (fun p => (done.map toRecord ++ p.1, p.2)) := by
  induction done with
  | nil =>
    intro rest r f _
    cases h : readAll ⟨rest, r, none⟩ f <;> simp [h]
  | cons op ops ih =>
    intro rest r f hlok
    have e : (op :: ops).length + f = ops.length + f + 1 := by
      simp [List.length_cons]
      omega
    rw [e, List.map_cons, List.flatten_cons, List.append_assoc]
    rw [readAll_cons op _ r _ (hlok op (List.mem_cons_self op ops))]
    rw [ih rest (toRecord op) f (fun o ho => hlok o (List.mem_cons_of_mem _ ho))]
    rw [List.map_cons, List.getLastD_cons]
    cases h : readAll ⟨rest, ((ops.map toRecord).getLastD (toRecord op)), none⟩ f <;>
      simp [h]


lemma put_eq (w : List BatchOp) (k v : List Nat) :
    WriteBatch.Put w k v = some (w ++ [BatchOp.put k v]) := by
  cases k <;> cases v <;> simp [WriteBatch.Put, addrOfFirst]

lemma delete_eq (w : List BatchOp) (k : List Nat) (h : k ≠ []) :
    WriteBatch.Delete w k = some (w ++ [BatchOp.del k]) := by
  cases k with
  | nil => exact absurd rfl h
  | cons a as => simp [WriteBatch.Delete, addrOfFirst]

lemma delete_nil (w : List BatchOp) : WriteBatch.Delete w [] = none := rfl

lemma applyOps_append (ops : List BatchOp) :
    ∀ w : List BatchOp, (∀ op ∈ ops, delOK op) → applyOps w ops = some (w ++ ops) := by
  induction ops with
  | nil => intro w _; simp [applyOps]
  | cons op rest ih =>
    intro w h
    cases op with
    | put k v =>
      rw [applyOps, put_eq]
      dsimp only
      rw [ih _ (fun o ho => h o (List.mem_cons_of_mem _ ho))]
      simp
    | del k =>
      rw [applyOps,
        delete_eq w k (by have := h _ (List.mem_cons_self _ rest); exact this)]
      dsimp only
      rw [ih _ (fun o ho => h o (List.mem_cons_of_mem _ ho))]
      simp

lemma next_exhausted (r : Record) :
    WriteBatchIterator.Next ⟨[], r, none⟩ = some (false, ⟨[], r, none⟩) := rfl

lemma next_sticky (it : WriteBatchIterator) (h : it.err.isSome) :
    it.Next = some (false, it) := by
  rw [WriteBatchIterator.Next, if_pos h]

lemma readAll_nil_end (r : Record) (f : Nat) :
    readAll ⟨[], r, none⟩ (f + 1) = some ([], ⟨[], r, none⟩) := by
  rw [readAll, next_exhausted]

lemma getD_take {l : List Nat} {n j : Nat} (h : j < n) :
    (l.take n).getD j 0 = l.getD j 0 := by
  simp [List.getD_eq_getElem?_getD, List.getElem?_take, h]

/-- Decoding a strict front segment of an encoded varint fails: every byte
before the last carries the continuation bit and the buffer ends before a
terminating byte. -/
lemma decodeVarint_take_front (L m : Nat) (hm : m < (encodeVarint L).length) :
    decodeVarint ((encodeVarint L).take m) = (0, 0) := by
  apply decodeVarintAux_all_cont
  · exact fun b hb => encodeVarint_bytes L b (List.take_subset _ _ hb)
  · intro j _ hlen
    have hjm : j < m := by
      have := List.length_take m (encodeVarint L)
      omega
    rw [Nat.zero_add, getD_take hjm]
    exact encodeVarint_cont L j (by omega)

/-- Truncating a record at an `errorCut` point and parsing it latches the
short-buffer error: `Next` returns `false` with the error set. -/
lemma next_truncRecord (op : BatchOp) (m : Nat) (r : Record)
    (hop : lengthsOK op) (hcut : errorCut op m) :
    ∃ it2 : WriteBatchIterator,
      WriteBatchIterator.Next ⟨(encodeRecord op).take m, r, none⟩ =
        some (false, it2) ∧ it2.err = some () := by
  cases op with
  | del k =>
    obtain ⟨h1, h2⟩ : 1 ≤ m ∧ m ≤ (encodeVarint k.length).length := hcut
    obtain ⟨m', rfl⟩ : ∃ m', m = m' + 1 := ⟨m - 1, by omega⟩
    have hpos := encodeVarint_length_pos k.length
    have hdata : (encodeRecord (BatchOp.del k)).take (m' + 1) =
        RecordTypeDeletion :: (encodeVarint k.length).take m' := by
      rw [encodeRecord, List.take_succ_cons,
        List.take_append_of_le_length (by omega)]
    rw [hdata]
    refine ⟨⟨(encodeVarint k.length).take m', ⟨none, none, RecordTypeDeletion⟩,
      some ()⟩, ?_, rfl⟩
    simp only [WriteBatchIterator.Next, Option.isSome_none, Bool.false_eq_true, if_false,
      decodeVarint_take_front k.length m' (by omega)]
    rfl
  | put k v =>
    rcases hcut with ⟨h1, h2⟩ | ⟨h1, h2⟩
    · obtain ⟨m', rfl⟩ : ∃ m', m = m' + 1 := ⟨m - 1, by omega⟩
      have hpos := encodeVarint_length_pos k.length
      have hdata : (encodeRecord (BatchOp.put k v)).take (m' + 1) =
          RecordTypeValue :: (encodeVarint k.length).take m' := by
        rw [encodeRecord, List.take_succ_cons, List.append_assoc, List.append_assoc,
          List.take_append_of_le_length (by omega)]
      rw [hdata]
      refine ⟨⟨(encodeVarint k.length).take m', ⟨none, none, RecordTypeValue⟩,
        some ()⟩, ?_, rfl⟩
      simp only [WriteBatchIterator.Next, Option.isSome_none, Bool.false_eq_true, if_false,
        decodeVarint_take_front k.length m' (by omega)]
      rfl
    · obtain ⟨hk, hv⟩ : k.length < 2 ^ 32 ∧ v.length < 2 ^ 32 := hop
      have hk63 : k.length < 2 ^ 63 := by omega
      have hposk := encodeVarint_length_pos k.length
      have hposv := encodeVarint_length_pos v.length
      set ekl := (encodeVarint k.length).length with hekl
      set evl := (encodeVarint v.length).length with hevl
      obtain ⟨j, rfl⟩ : ∃ j, m = 1 + ekl + k.length + j :=
        ⟨m - 1 - ekl - k.length, by omega⟩
      have hj : j < evl := by omega
      have hdata : (encodeRecord (BatchOp.put k v)).take (1 + ekl + k.length + j) =
          RecordTypeValue ::
            (encodeVarint k.length ++ (k ++ (encodeVarint v.length).take j)) := by
        rw [encodeRecord]
        have e1 : 1 + ekl + k.length + j = (ekl + (k.length + j)) + 1 := by omega
        rw [e1, List.take_succ_cons, List.append_assoc, List.append_assoc]
        rw [hekl, List.take_append]
        congr 1
        rw [List.take_append]
        congr 1
        rw [List.take_append_of_le_length (by omega)]
      rw [hdata]
      refine ⟨⟨(encodeVarint v.length).take j, ⟨some k, none, RecordTypeValue⟩,
        some ()⟩, ?_, rfl⟩
      simp only [WriteBatchIterator.Next, Option.isSome_none, Bool.false_eq_true, if_false,
        decodeVarint_encodeVarint k.length (by omega : k.length < 2 ^ 64)
          (k ++ (encodeVarint v.length).take j)]
      rw [if_neg (by omega)]
      rw [goSlice_encoded k ((encodeVarint v.length).take j) hk63,
        goSliceFrom_encoded k ((encodeVarint v.length).take j) hk63]
      dsimp only
      rw [if_pos (by simp [RecordTypeValue, RecordTypeMerge])]
      simp only [decodeVarint_take_front v.length j (by omega)]
      rfl

lemma decodeVarintAux_fst_lt (buf : List Nat) :
    ∀ (iters shift x n : Nat), x < 2 ^ 64 →
      (decodeVarintAux buf iters shift x n).1 < 2 ^ 64 := by
  intro iters
  induction iters with
  | zero => intro shift x n _; simp [decodeVarintAux]
  | succ it ih =>
    intro shift x n hx
    simp only [decodeVarintAux]
    split
    · simp
    · split
      · exact Nat.mod_lt _ (by norm_num)
      · exact ih _ _ _ (Nat.mod_lt _ (by norm_num))

lemma decodeVarint_fst_lt (buf : List Nat) : (decodeVarint buf).1 < 2 ^ 64 :=
  decodeVarintAux_fst_lt buf 10 0 0 0 (by norm_num)

lemma goSlice_eq_some {l : List Nat} {lo : Nat} {hi : Int} {res : List Nat}
    (h : goSlice l lo hi = some res) :
    (lo : Int) ≤ hi ∧ hi ≤ (l.length : Int) ∧ res = (l.take hi.toNat).drop lo := by
  rw [goSlice] at h
  split at h
  · injection h with h2
    exact ⟨by tauto, by tauto, h2.symm⟩
  · exact absurd h (by simp)

lemma goSliceFrom_eq_some {l : List Nat} {lo : Int} {res : List Nat}
    (h : goSliceFrom l lo = some res) :
    0 ≤ lo ∧ lo ≤ (l.length : Int) ∧ res = l.drop lo.toNat := by
  rw [goSliceFrom] at h
  split at h
  · injection h with h2
    exact ⟨by tauto, by tauto, h2.symm⟩
  · exact absurd h (by simp)

/-- If the slice lower bound `n` is at most the upper bound `n + int(x)`
for a 64-bit `x`, then `x` fits 63 bits and the upper bound is `n + x`. -/
lemma goInt64_bounds {x n : Nat} (hx : x < 2 ^ 64)
    (h : (n : Int) ≤ (n : Int) + goInt64 x) :
    x < 2 ^ 63 ∧ ((n : Int) + goInt64 x).toNat = n + x := by
  rw [goInt64] at h ⊢
  split at h
  · rename_i h63
    refine ⟨h63, ?_⟩
    rw [if_pos h63]
    rfl
  · exfalso
    rename_i h63
    push_neg at h63
    have : (x : Int) - 2 ^ 64 < 0 := by
      have : (x : Int) < 2 ^ 64 := by exact_mod_cast hx
      omega
    omega

lemma next_err_char (it : WriteBatchIterator) (b : Bool) (it' : WriteBatchIterator)
    (herr : it.err = none) (h : it.Next = some (b, it')) :
    it'.err.isSome = varintFailsInRecord it.data := by
  obtain ⟨data, rec, err⟩ := it
  simp only at herr
  subst herr
  cases data with
  | nil =>
    simp only [WriteBatchIterator.Next, Option.isSome_none, Bool.false_eq_true,
      if_false, Option.some.injEq, Prod.mk.injEq] at h
    obtain ⟨_, h2⟩ := h
    subst h2
    simp [varintFailsInRecord]
  | cons t body =>
    simp only [WriteBatchIterator.Next, Option.isSome_none, Bool.false_eq_true,
      if_false] at h
    by_cases hp : (decodeVarint body).2 = 0
    · rw [if_pos hp] at h
      simp only [Option.some.injEq, Prod.mk.injEq] at h
      obtain ⟨_, h2⟩ := h
      subst h2
      simp [varintFailsInRecord, hp]
    · rw [if_neg hp] at h
      rcases hs1 : goSlice body (decodeVarint body).2
          (((decodeVarint body).2 : Int) + goInt64 (decodeVarint body).1) with _ | key
      · rw [hs1] at h
        simp at h
      · rw [hs1] at h
        rcases hs2 : goSliceFrom body
            (((decodeVarint body).2 : Int) + goInt64 (decodeVarint body).1) with _ | rest2
        · rw [hs2] at h
          simp at h
        · rw [hs2] at h
          dsimp only at h
          obtain ⟨hle, hhi, hkey⟩ := goSlice_eq_some hs1
          obtain ⟨x63, htoNat⟩ := goInt64_bounds (decodeVarint_fst_lt body) hle
          obtain ⟨_, _, hrest2⟩ := goSliceFrom_eq_some hs2
          rw [htoNat] at hrest2
          by_cases ht : t = RecordTypeValue ∨ t = RecordTypeMerge
          · rw [if_pos ht] at h
            by_cases hq : (decodeVarint rest2).2 = 0
            · rw [if_pos hq] at h
              simp only [Option.some.injEq, Prod.mk.injEq] at h
              obtain ⟨_, h2⟩ := h
              subst h2
              rw [hrest2] at hq
              simp only [varintFailsInRecord, Option.isSome_some, hq]
              rcases ht with rfl | rfl <;> simp [hp, RecordTypeValue, RecordTypeMerge]
            · rw [if_neg hq] at h
              rcases hs3 : goSlice rest2 (decodeVarint rest2).2
                  (((decodeVarint rest2).2 : Int) + goInt64 (decodeVarint rest2).1)
                  with _ | v
              · rw [hs3] at h
                simp at h
              · rw [hs3] at h
                rcases hs4 : goSliceFrom rest2
                    (((decodeVarint rest2).2 : Int) + goInt64 (decodeVarint rest2).1)
                    with _ | rest3
                · rw [hs4] at h
                  simp at h
                · rw [hs4] at h
                  dsimp only at h
                  simp only [Option.some.injEq, Prod.mk.injEq] at h
                  obtain ⟨_, h2⟩ := h
                  subst h2
                  rw [hrest2] at hq
                  simp only [varintFailsInRecord, Option.isSome_none]
                  rcases ht with rfl | rfl <;> simp [hp, hq, RecordTypeValue, RecordTypeMerge]
          · rw [if_neg ht] at h
            simp only [Option.some.injEq, Prod.mk.injEq] at h
            obtain ⟨_, h2⟩ := h
            subst h2
            push_neg at ht
            obtain ⟨ht1, ht2⟩ := ht
            simp only [varintFailsInRecord, Option.isSome_none]
            simp only [RecordTypeValue] at ht1
            simp only [RecordTypeMerge] at ht2
            simp [hp, ht1, ht2, RecordTypeValue, RecordTypeMerge]


lemma next_true_char (it it' : WriteBatchIterator) (h : it.Next = some (true, it')) :
    it.err = none ∧ it'.err = none ∧
    ∃ t body x n, it.data = t :: body ∧ decodeVarint body = (x, n) ∧ 0 < n ∧
      it'.record.Typ = t ∧ it'.record.Key = some ((body.drop n).take x) ∧
      (¬(t = RecordTypeValue ∨ t = RecordTypeMerge) →
        it'.record.Value = none ∧ it'.data = body.drop (n + x)) ∧
      ((t = RecordTypeValue ∨ t = RecordTypeMerge) →
        ∃ x2 n2, decodeVarint (body.drop (n + x)) = (x2, n2) ∧ 0 < n2 ∧
          it'.record.Value = some (((body.drop (n + x)).drop n2).take x2) ∧
          it'.data = (body.drop (n + x)).drop (n2 + x2)) := by
  obtain ⟨data, rec, err⟩ := it
  cases err with
  | some u =>
    rw [next_sticky ⟨data, rec, some u⟩ rfl] at h
    simp at h
  | none =>
  refine ⟨rfl, ?_⟩
  cases data with
  | nil =>
    simp only [WriteBatchIterator.Next, Option.isSome_none, Bool.false_eq_true,
      if_false, Option.some.injEq, Prod.mk.injEq] at h
    simp at h
  | cons t body =>
    simp only [WriteBatchIterator.Next, Option.isSome_none, Bool.false_eq_true,
      if_false] at h
    by_cases hp : (decodeVarint body).2 = 0
    · rw [if_pos hp] at h
      simp at h
    · rw [if_neg hp] at h
      rcases hs1 : goSlice body (decodeVarint body).2
          (((decodeVarint body).2 : Int) + goInt64 (decodeVarint body).1) with _ | key
      · rw [hs1] at h
        simp at h
      · rw [hs1] at h
        rcases hs2 : goSliceFrom body
            (((decodeVarint body).2 : Int) + goInt64 (decodeVarint body).1) with _ | rest2
        · rw [hs2] at h
          simp at h
        · rw [hs2] at h
          dsimp only at h
          obtain ⟨hle, hhi, hkey⟩ := goSlice_eq_some hs1
          obtain ⟨x63, htoNat⟩ := goInt64_bounds (decodeVarint_fst_lt body) hle
          obtain ⟨_, _, hrest2⟩ := goSliceFrom_eq_some hs2
          rw [htoNat] at hkey hrest2
          have hkey2 : key = (body.drop (decodeVarint body).2).take (decodeVarint body).1 := by
            rw [List.take_drop]
            exact hkey
          by_cases ht : t = RecordTypeValue ∨ t = RecordTypeMerge
          · rw [if_pos ht] at h
            by_cases hq : (decodeVarint rest2).2 = 0
            · rw [if_pos hq] at h
              simp at h
            · rw [if_neg hq] at h
              rcases hs3 : goSlice rest2 (decodeVarint rest2).2
                  (((decodeVarint rest2).2 : Int) + goInt64 (decodeVarint rest2).1)
                  with _ | v
              · rw [hs3] at h
                simp at h
              · rw [hs3] at h
                rcases hs4 : goSliceFrom rest2
                    (((decodeVarint rest2).2 : Int) + goInt64 (decodeVarint rest2).1)
                    with _ | rest3
                · rw [hs4] at h
                  simp at h
                · rw [hs4] at h
                  dsimp only at h
                  simp only [Option.some.injEq, Prod.mk.injEq] at h
                  obtain ⟨_, h2⟩ := h
                  subst h2
                  obtain ⟨hle2, hhi2, hv⟩ := goSlice_eq_some hs3
                  obtain ⟨x632, htoNat2⟩ := goInt64_bounds (decodeVarint_fst_lt rest2) hle2
                  obtain ⟨_, _, hrest3⟩ := goSliceFrom_eq_some hs4
                  rw [htoNat2] at hv hrest3
                  have hv2 : v = (rest2.drop (decodeVarint rest2).2).take
                      (decodeVarint rest2).1 := by
                    rw [List.take_drop]
                    exact hv
                  refine ⟨rfl, t, body, (decodeVarint body).1, (decodeVarint body).2,
                    rfl, rfl, by omega, rfl, by rw [hkey2], ?_, ?_⟩
                  · intro hcon
                    exact absurd ht hcon
                  · intro _
                    refine ⟨(decodeVarint rest2).1, (decodeVarint rest2).2, ?_, by omega,
                      ?_, ?_⟩
                    · rw [← hrest2]
                    · rw [← hrest2, hv2]
                    · rw [← hrest2, hrest3]
          · rw [if_neg ht] at h
            simp only [Option.some.injEq, Prod.mk.injEq] at h
            obtain ⟨_, h2⟩ := h
            subst h2
            refine ⟨rfl, t, body, (decodeVarint body).1, (decodeVarint body).2,
              rfl, rfl, by omega, rfl, by rw [hkey2], ?_, ?_⟩
            · intro _
              exact ⟨rfl, by rw [← hrest2]⟩
            · intro hcon
              exact absurd hcon ht

lemma newIterator_header (c : Nat) (rest : List Nat) :
    newIterator (List.replicate 8 0 ++ fixed32LE c ++ rest) =
      ⟨rest, ⟨none, none, 0⟩, none⟩ := by
  have hlen : (List.replicate 8 0 ++ fixed32LE c).length = 12 := by
    simp [fixed32LE]
  rw [newIterator, if_neg (by simp [List.length_append, fixed32LE])]
  congr 1

lemma errorCut_le_length (op : BatchOp) (m : Nat) (h : errorCut op m) :
    m ≤ (encodeRecord op).length := by
  cases op with
  | del k =>
    obtain ⟨h1, h2⟩ := h
    simp [encodeRecord, List.length_append]
    omega
  | put k v =>
    rcases h with ⟨h1, h2⟩ | ⟨h1, h2⟩ <;>
      · simp [encodeRecord, List.length_append]
        omega

/-- C1: round-trip.  For every finite sequence of put/delete operations
(delete keys non-empty, key/value lengths in the wire format's varint32
range) applied to a fresh batch, iterating a reader over the serialized
bytes yields exactly that sequence of records, in order, with identical
key/value bytes and matching type tags, after which `Next` returns `false`
with no latched error. -/
theorem c1_roundtrip (ops : List BatchOp)
    (hdel : ∀ op ∈ ops, delOK op) (hlen : ∀ op ∈ ops, lengthsOK op) :
    applyOps [] ops = some ops ∧
    ∃ itf : WriteBatchIterator,
      readAll (newIterator (serialize ops)) (ops.length + 1) =
        some (ops.map toRecord, itf) ∧
      itf.err = none ∧ itf.data = [] ∧ itf.Next = some (false, itf) := by
  refine ⟨by simpa using applyOps_append ops [] hdel, ?_⟩
  rw [serialize, newIterator_header]
  refine ⟨⟨[], (ops.map toRecord).getLastD ⟨none, none, 0⟩, none⟩, ?_, rfl, rfl, ?_⟩
  · rw [show (ops.map encodeRecord).flatten =
      (ops.map encodeRecord).flatten ++ [] by simp]
    rw [show ops.length + 1 = ops.length + (0 + 1) by omega]
    rw [readAll_flatten ops [] ⟨none, none, 0⟩ (0 + 1) hlen]
    rw [readAll_nil_end]
    simp
  · exact next_exhausted _

/-- C1 witness: the spec §8 concrete scenario, put("a","1"), delete("b"),
put("c",""), round-trips. -/
theorem c1_roundtrip_witness :
    applyOps [] [BatchOp.put [97] [49], BatchOp.del [98], BatchOp.put [99] []] =
      some [BatchOp.put [97] [49], BatchOp.del [98], BatchOp.put [99] []] ∧
    ∃ itf : WriteBatchIterator,
      readAll (newIterator (serialize
        [BatchOp.put [97] [49], BatchOp.del [98], BatchOp.put [99] []])) 4 =
        some ([⟨some [97], some [49], RecordTypeValue⟩,
          ⟨some [98], none, RecordTypeDeletion⟩,
          ⟨some [99], some [], RecordTypeValue⟩], itf) ∧
      itf.err = none ∧ itf.data = [] ∧ itf.Next = some (false, itf) :=
  c1_roundtrip [BatchOp.put [97] [49], BatchOp.del [98], BatchOp.put [99] []]
    (by decide) (by decide)

/-- C2 counterexample: a well-formed 10-byte varint whose terminating byte
contributes bits beyond position 63.  The decoder consumes all 10 bytes
but returns the combination truncated to 64 bits (here 0), not the
combined unsigned integer (here 2^64). -/
theorem c2_counterexample :
    decodeVarint [128, 128, 128, 128, 128, 128, 128, 128, 128, 2] = (0, 10) ∧
    combineLow7 [128, 128, 128, 128, 128, 128, 128, 128, 128, 2] = 2 ^ 64 ∧
    (0 : Nat) ≠ 2 ^ 64 := by
  refine ⟨by decide, by decide, by decide⟩

/-- C2 (amended): for a buffer whose first clear-continuation byte is at
index `i < 10`, `decodeVarint` returns the base-128 combination of the
low 7 bits of the consumed bytes REDUCED MODULO 2^64, and consumes
`i + 1` bytes; the input buffer is a pure value, so it is not mutated. -/
theorem c2_varint_decode (buf : List Nat) (i : Nat)
    (hbytes : ∀ b ∈ buf, b < 256) (hi10 : i < 10) (hilen : i < buf.length)
    (hclear : buf.getD i 0 < 128) (hcont : ∀ j, j < i → 128 ≤ buf.getD j 0) :
    decodeVarint buf = (combineLow7 (buf.take (i + 1)) % 2 ^ 64, i + 1) := by
  have h := decodeVarintAux_clear i buf buf 0 0 10 0 (List.drop_zero _)
    (fun j hj => hbytes _ (getD_mem (by omega)))
    hcont hilen hclear hi10 (by norm_num) (by norm_num)
  rw [decodeVarint, h]
  simp

/-- C2 witness: decoding `[150, 1]` (the varint for 150). -/
theorem c2_varint_decode_witness :
    decodeVarint [150, 1] = (combineLow7 ([150, 1].take 2) % 2 ^ 64, 2) :=
  c2_varint_decode [150, 1] 1 (by decide) (by decide) (by decide) (by decide)
    (by decide)

/-- C3 counterexample: the buffer `[128 × 9, 2]` encodes the value 2^64,
which needs 65 bits, yet `decodeVarint` reports 10 bytes consumed instead
of the failure sentinel 0. -/
theorem c3_counterexample :
    (decodeVarint [128, 128, 128, 128, 128, 128, 128, 128, 128, 2]).2 = 10 ∧
    2 ^ 64 ≤ combineLow7 [128, 128, 128, 128, 128, 128, 128, 128, 128, 2] := by
  refine ⟨by decide, by decide⟩

/-- C3 (amended): `decodeVarint` returns `bytesConsumed = 0` exactly when
no byte with a clear continuation bit occurs among the first
`min 10 (length)` bytes — i.e. the buffer is exhausted first, or the first
10 bytes all carry the continuation bit.  An encoded value needing more
than 64 bits is NOT by itself reported as failure (see the
counterexample). -/
theorem c3_decode_failure (buf : List Nat) (hbytes : ∀ b ∈ buf, b < 256) :
    (decodeVarint buf).2 = 0 ↔
      ∀ j, j < min 10 buf.length → 128 ≤ buf.getD j 0 := by
  constructor
  · intro h0
    by_contra hcon
    push_neg at hcon
    obtain ⟨j, hj, hjlt⟩ := hcon
    have hex : ∃ j, j < min 10 buf.length ∧ buf.getD j 0 < 128 :=
      ⟨j, hj, by omega⟩
    obtain ⟨hi, hiclear⟩ := Nat.find_spec hex
    have hmin : ∀ j2, j2 < Nat.find hex → 128 ≤ buf.getD j2 0 := by
      intro j2 hj2
      by_contra hc2
      exact Nat.find_min hex hj2 ⟨by omega, by omega⟩
    have h := decodeVarintAux_clear (Nat.find hex) buf buf 0 0 10 0
      (List.drop_zero _)
      (fun j2 hj2 => hbytes _ (getD_mem (by omega)))
      hmin (by omega) hiclear (by omega) (by norm_num) (by norm_num)
    rw [decodeVarint, h] at h0
    simp at h0
  · intro hcont
    rw [decodeVarint, decodeVarintAux_all_cont buf hbytes 10 0 0 0 ?_]
    intro j hj hjlen
    simpa using hcont j (by omega)

/-- C3 witness: a two-byte buffer of continuation bytes is exhausted
before a terminator, so zero bytes are consumed. -/
theorem c3_decode_failure_witness : (decodeVarint [128, 128]).2 = 0 :=
  (c3_decode_failure [128, 128] (by decide)).mpr (by decide)

/-- C4: whenever `Next` succeeds (returns `true`), the decoded record has
the type tag equal to the first consumed byte, the key equal to the
varint-length-delimited byte run after the type byte, a value equal to a
second such run exactly when the type is Value or Merge, and an unset
(nil) value otherwise. -/
theorem c4_record_fields (it it' : WriteBatchIterator)
    (h : it.Next = some (true, it')) :
    it.err = none ∧ it'.err = none ∧
    ∃ t body x n, it.data = t :: body ∧ decodeVarint body = (x, n) ∧ 0 < n ∧
      it'.record.Typ = t ∧ it'.record.Key = some ((body.drop n).take x) ∧
      (¬(t = RecordTypeValue ∨ t = RecordTypeMerge) →
        it'.record.Value = none ∧ it'.data = body.drop (n + x)) ∧
      ((t = RecordTypeValue ∨ t = RecordTypeMerge) →
        ∃ x2 n2, decodeVarint (body.drop (n + x)) = (x2, n2) ∧ 0 < n2 ∧
          it'.record.Value = some (((body.drop (n + x)).drop n2).take x2) ∧
          it'.data = (body.drop (n + x)).drop (n2 + x2)) :=
  next_true_char it it' h

/-- C4 witness: one deletion record with key `[97]`. -/
theorem c4_record_fields_witness :
    (WriteBatchIterator.mk [0, 1, 97] ⟨none, none, 0⟩ none).err = none ∧
    (WriteBatchIterator.mk [] ⟨some [97], none, 0⟩ none).err = none ∧
    ∃ t body x n,
      (WriteBatchIterator.mk [0, 1, 97] ⟨none, none, 0⟩ none).data = t :: body ∧
      decodeVarint body = (x, n) ∧ 0 < n ∧
      (Record.mk (some [97]) none 0).Typ = t ∧
      (Record.mk (some [97]) none 0).Key = some ((body.drop n).take x) ∧
      (¬(t = RecordTypeValue ∨ t = RecordTypeMerge) →
        (Record.mk (some [97]) none 0).Value = none ∧
        (WriteBatchIterator.mk [] ⟨some [97], none, 0⟩ none).data =
          body.drop (n + x)) ∧
      ((t = RecordTypeValue ∨ t = RecordTypeMerge) →
        ∃ x2 n2, decodeVarint (body.drop (n + x)) = (x2, n2) ∧ 0 < n2 ∧
          (Record.mk (some [97]) none 0).Value =
            some (((body.drop (n + x)).drop n2).take x2) ∧
          (WriteBatchIterator.mk [] ⟨some [97], none, 0⟩ none).data =
            (body.drop (n + x)).drop (n2 + x2)) :=
  c4_record_fields (WriteBatchIterator.mk [0, 1, 97] ⟨none, none, 0⟩ none)
    (WriteBatchIterator.mk [] ⟨some [97], none, 0⟩ none) (by decide)

/-- C5: an input shorter than the 12-byte header yields the zero-valued
reader: empty remaining body, `Next` immediately `false`, zero records,
and no error. -/
theorem c5_short_header (l : List Nat) (h : l.length < 12) :
    newIterator l = ⟨[], ⟨none, none, 0⟩, none⟩ ∧
    (newIterator l).Next = some (false, newIterator l) ∧
    ∀ f, 0 < f → readAll (newIterator l) f = some ([], newIterator l) := by
  have e : newIterator l = ⟨[], ⟨none, none, 0⟩, none⟩ := by
    rw [newIterator, if_pos (by omega)]
  refine ⟨e, ?_, ?_⟩
  · rw [e]
    exact next_exhausted _
  · intro f hf
    obtain ⟨f2, rfl⟩ : ∃ f2, f = f2 + 1 := ⟨f - 1, by omega⟩
    rw [e]
    exact readAll_nil_end _ f2

/-- C5 witness: a 3-byte input. -/
theorem c5_short_header_witness :
    readAll (newIterator [1, 2, 3]) 1 = some ([], newIterator [1, 2, 3]) :=
  (c5_short_header [1, 2, 3] (by decide)).2.2 1 (by decide)

/-- C6: the latched error is sticky — with an error set, `Next` returns
`false` and leaves the whole state (input view, record, error) untouched —
and, from an error-free state, an error is latched exactly when a varint
length decode inside the record consumes zero bytes. -/
theorem c6_error_latch :
    (∀ it : WriteBatchIterator, it.err.isSome → it.Next = some (false, it)) ∧
    (∀ (it : WriteBatchIterator) (b : Bool) (it' : WriteBatchIterator),
      it.err = none → it.Next = some (b, it') →
      it'.err.isSome = varintFailsInRecord it.data) :=
  ⟨next_sticky, next_err_char⟩

/-- C6 witness: a latched-error state is returned unchanged. -/
theorem c6_error_latch_witness :
    WriteBatchIterator.Next ⟨[0, 1, 97], ⟨none, none, 0⟩, some ()⟩ =
      some (false, ⟨[0, 1, 97], ⟨none, none, 0⟩, some ()⟩) :=
  c6_error_latch.1 ⟨[0, 1, 97], ⟨none, none, 0⟩, some ()⟩ rfl

/-- C8: no bounds check precedes the key/value slice: on `[0, 5, 97]`
(a deletion record whose declared key length 5 exceeds the 2 remaining
bytes) the length varint decodes successfully and the slice faults
(`Next = none`) instead of latching the short-buffer error; and the error
branch is reached only when a varint decode consumes zero bytes. -/
theorem c8_unchecked_slice :
    decodeVarint [5, 97] = (5, 1) ∧
    WriteBatchIterator.Next ⟨[0, 5, 97], ⟨none, none, 0⟩, none⟩ = none ∧
    (∀ (it : WriteBatchIterator) (b : Bool) (it' : WriteBatchIterator),
      it.err = none → it.Next = some (b, it') → it'.err.isSome →
      varintFailsInRecord it.data = true) := by
  refine ⟨by decide, by decide, ?_⟩
  intro it b it' herr h herr2
  rw [← next_err_char it b it' herr h]
  exact herr2

/-- C8 witness: for the one-byte record `[0]` the key-length varint
decode fails, which is the latching condition. -/
theorem c8_unchecked_slice_witness : varintFailsInRecord [0] = true :=
  c8_unchecked_slice.2.2 ⟨[0], ⟨none, none, 0⟩, none⟩ false
    ⟨[], ⟨none, none, 0⟩, some ()⟩ rfl (by decide) (by decide)

/-- C9: `Delete` takes the address of the key's first byte
unconditionally, so it faults on the empty key and succeeds on any
non-empty key, while `Put` guards its address-taking on non-zero lengths
and accepts empty keys and values without fault. -/
theorem c9_delete_empty_key :
    (∀ w : List BatchOp, WriteBatch.Delete w [] = none) ∧
    (∀ (w : List BatchOp) (k : List Nat), k ≠ [] →
      WriteBatch.Delete w k = some (w ++ [BatchOp.del k])) ∧
    (∀ (w : List BatchOp) (k v : List Nat),
      WriteBatch.Put w k v = some (w ++ [BatchOp.put k v])) :=
  ⟨delete_nil, delete_eq, put_eq⟩

/-- C9 witness: deleting key `[97]` from the empty batch succeeds. -/
theorem c9_delete_empty_key_witness :
    WriteBatch.Delete [] [97] = some [BatchOp.del [97]] :=
  c9_delete_empty_key.2.1 [] [97] (by decide)

/-- C10: the reader never reads the header's 4-byte count field: two
well-formed inputs that agree outside bytes 8..11 produce identical
readers, hence the same record sequence and error state. -/
theorem c10_count_ignored (l1 l2 : List Nat)
    (h1 : 12 ≤ l1.length) (h2 : 12 ≤ l2.length)
    (hseq : l1.take 8 = l2.take 8) (hbody : l1.drop 12 = l2.drop 12) :
    newIterator l1 = newIterator l2 ∧
    ∀ f, readAll (newIterator l1) f = readAll (newIterator l2) f := by
  have e : newIterator l1 = newIterator l2 := by
    rw [newIterator, newIterator, if_neg (by omega), if_neg (by omega), hbody]
  exact ⟨e, fun f => by rw [e]⟩

/-- C10 witness: two 12-byte headers differing only in the count field. -/
theorem c10_count_ignored_witness :
    newIterator [0, 0, 0, 0, 0, 0, 0, 0, 0, 0, 0, 0] =
      newIterator [0, 0, 0, 0, 0, 0, 0, 0, 9, 0, 0, 0] :=
  (c10_count_ignored [0, 0, 0, 0, 0, 0, 0, 0, 0, 0, 0, 0]
    [0, 0, 0, 0, 0, 0, 0, 0, 9, 0, 0, 0] (by decide) (by decide) (by decide)
    (by decide)).1

/-- C7 counterexample: `serialize [put "ab" "c"]` is a well-formed
one-record batch of 18 bytes whose record occupies bytes 12..17;
truncating to 15 bytes cuts strictly inside the record (inside the key
data bytes), yet the reader faults on the out-of-range key slice
(`Next = none`) instead of latching a short-buffer error and returning
`false`. -/
theorem c7_counterexample :
    (serialize [BatchOp.put [97, 98] [99]]).length = 18 ∧
    WriteBatchIterator.Next
      (newIterator ((serialize [BatchOp.put [97, 98] [99]]).take 15)) = none := by
  refine ⟨by decide, by decide⟩

/-- C7 (amended): truncating a well-formed batch strictly inside a record
AT A CUT POINT INSIDE A LENGTH VARINT OR AT A FIELD BOUNDARY (an
`errorCut` point — cuts landing inside key/value data bytes after a fully
present length varint fault instead, see the counterexample) makes the
reader decode all complete records before the truncated one, then latch
the short-buffer error, return `false`, and produce no further records. -/
theorem c7_truncation (done : List BatchOp) (op : BatchOp) (tail : List BatchOp)
    (m : Nat)
    (hlok : ∀ o ∈ done, lengthsOK o) (hop : lengthsOK op)
    (hcut : errorCut op m) :
    ∃ itf : WriteBatchIterator,
      readAll (newIterator ((serialize (done ++ op :: tail)).take
          (12 + ((done.map encodeRecord).flatten).length + m)))
        (done.length + 1) =
        some (done.map toRecord, itf) ∧
      itf.err = some () ∧ itf.Next = some (false, itf) := by
  have hm := errorCut_le_length op m hcut
  have hhdr : (List.replicate (8 : Nat) (0 : Nat) ++
      fixed32LE (done ++ op :: tail).length).length = 12 := by
    simp [fixed32LE]
  have hser : (serialize (done ++ op :: tail)).take
      (12 + ((done.map encodeRecord).flatten).length + m) =
      List.replicate 8 0 ++ fixed32LE (done ++ op :: tail).length ++
        ((done.map encodeRecord).flatten ++ (encodeRecord op).take m) := by
    rw [serialize]
    have e1 : 12 + ((done.map encodeRecord).flatten).length + m =
        (List.replicate (8 : Nat) (0 : Nat) ++
          fixed32LE (done ++ op :: tail).length).length +
          (((done.map encodeRecord).flatten).length + m) := by
      rw [hhdr]
      omega
    rw [e1, List.take_append]
    congr 1
    rw [List.map_append, List.flatten_append, List.map_cons, List.flatten_cons]
    rw [List.take_append, List.take_append_of_le_length hm]
  rw [hser, newIterator_header]
  rw [show done.length + 1 = done.length + (0 + 1) by omega]
  rw [readAll_flatten done ((encodeRecord op).take m) ⟨none, none, 0⟩ (0 + 1) hlok]
  obtain ⟨it2, hnext, herr2⟩ := next_truncRecord op m
    ((done.map toRecord).getLastD ⟨none, none, 0⟩) hop hcut
  have hread : readAll ⟨(encodeRecord op).take m,
      (done.map toRecord).getLastD ⟨none, none, 0⟩, none⟩ (0 + 1) =
      some ([], it2) := by
    simp only [readAll, hnext]
  rw [hread]
  exact ⟨it2, by simp, herr2, next_sticky it2 (by simp [herr2])⟩

/-- C7 witness: batch `[put "a" "1", put "bc" "d"]` truncated right after
the second record's key bytes (cut point 4 of the second record): the
first record is decoded, then the short-buffer error is latched. -/
theorem c7_truncation_witness :
    ∃ itf : WriteBatchIterator,
      readAll (newIterator ((serialize
          [BatchOp.put [97] [49], BatchOp.put [98, 99] [100]]).take
          (12 + (([BatchOp.put [97] [49]].map encodeRecord).flatten).length + 4)))
        ([BatchOp.put [97] [49]].length + 1) =
        some ([BatchOp.put [97] [49]].map toRecord, itf) ∧
      itf.err = some () ∧ itf.Next = some (false, itf) :=
  c7_truncation [BatchOp.put [97] [49]] (BatchOp.put [98, 99] [100]) [] 4
    (by decide) (by decide) (by decide)

end GoRocks
